import Mathlib

/-!
Verification of the `specialize` code-generation preprocessor
(`cmd/specialize/main.go`): macro expansion of comma-separated type lists,
derivation of capitalized identifiers from type expressions, construction of
the nested X × Y × Z specialization tree handed to the template engine, and
derivation of the default output path.

Strings are modelled as `List Char`.  The Go standard-library helpers the
program calls (`strings.TrimSpace`, `strings.ToLower`, `strings.Title`,
`strings.Replace`, `strings.Split`, `path/filepath.Base/Dir/Join/Clean`) are
embedded at ASCII/Latin-1 fidelity, which covers every rune class the
program's semantics distinguishes on its inputs; the embedding notes the
scope at each definition.
-/

namespace Specialize

/-- Model of `unicode.IsSpace` at Latin-1 fidelity: space, tab, newline,
vertical tab, form feed, carriage return, NEL (U+0085) and NBSP (U+00A0).
Go additionally treats a handful of runes above U+00FF as space; those do not
occur in type expressions. -/
def isSpaceGo (c : Char) : Bool :=
  c == ' ' || c == '\t' || c == '\n' || c.toNat == 11 || c.toNat == 12 ||
    c == '\r' || c.toNat == 0x85 || c.toNat == 0xA0

/-- Model of `strings.TrimSpace`: drop leading and trailing white space. -/
def trimSpace (s : List Char) : List Char :=
  ((s.dropWhile isSpaceGo).reverse.dropWhile isSpaceGo).reverse

/-- Model of `strings.ToLower` on ASCII (macro names and keys are ASCII;
`Char.toLower` lowers exactly the ASCII uppercase letters). -/
def toLowerGo (s : List Char) : List Char :=
  s.map Char.toLower

/-- The fixed macro registry of `main.go` (a two-key Go map), modelled as an
association list. -/
def macros : List (List Char × List (List Char)) :=
  [("integers".toList,
    ["int".toList, "int8".toList, "int16".toList, "int32".toList,
     "int64".toList, "uint".toList, "uint8".toList, "uint16".toList,
     "uint32".toList, "uint64".toList]),
   ("floats".toList, ["float32".toList, "float64".toList])]

/-- Go map lookup `macros[k]`. -/
def macroLookup (k : List Char) : Option (List (List Char)) :=
  (macros.find? fun kv => kv.1 == k).map (·.2)

/-- Model of `expand` from `main.go`: parse, clean up and expand macros for a
comma-separated list.  Each piece is trimmed; empty pieces are skipped; a
piece whose lower-casing is a macro name contributes the macro's whole list,
any other piece is kept verbatim. -/
def expand (list : List Char) : List (List Char) :=
  (list.splitOn ',').flatMap fun piece =>
    let xt := trimSpace piece
    if xt = [] then []
    else
      match macroLookup (toLowerGo xt) with
      | some exp => exp
      | none => [xt]

/-- ASCII title-case mapping for a single rune, modelling `unicode.ToTitle`
on the rune classes the tool distinguishes (ASCII letters; any other rune is
returned unchanged). -/
def asciiUpperMap : List (Char × Char) :=
  [('a', 'A'), ('b', 'B'), ('c', 'C'), ('d', 'D'), ('e', 'E'), ('f', 'F'),
   ('g', 'G'), ('h', 'H'), ('i', 'I'), ('j', 'J'), ('k', 'K'), ('l', 'L'),
   ('m', 'M'), ('n', 'N'), ('o', 'O'), ('p', 'P'), ('q', 'Q'), ('r', 'R'),
   ('s', 'S'), ('t', 'T'), ('u', 'U'), ('v', 'V'), ('w', 'W'), ('x', 'X'),
   ('y', 'Y'), ('z', 'Z')]

/-- Title-casing of one rune: upper-case an ASCII lower-case letter, leave
everything else unchanged. -/
def toTitleChar (c : Char) : Char :=
  match asciiUpperMap.find? fun p => p.1 == c with
  | some p => p.2
  | none => c

/-- Model of the word-separator test of `strings.Title` at Latin-1 fidelity:
ASCII alphanumerics and the underscore are not separators, every other ASCII
rune is; beyond ASCII, letters and digits are not separators and only white
space is. -/
def isSeparatorGo (c : Char) : Bool :=
  if c.toNat ≤ 0x7F then
    !((decide ('0' ≤ c) && decide (c ≤ '9')) ||
      (decide ('a' ≤ c) && decide (c ≤ 'z')) ||
      (decide ('A' ≤ c) && decide (c ≤ 'Z')) || c == '_')
  else
    isSpaceGo c

/-- The rune-mapping loop of `strings.Title`: a rune is title-cased exactly
when the previous rune is a separator; the previous rune starts as a space. -/
def titleAux (prev : Char) : List Char → List Char
  | [] => []
  | r :: rest => (if isSeparatorGo prev then toTitleChar r else r) :: titleAux r rest

/-- Model of `strings.Title`. -/
def stringsTitle (s : List Char) : List Char :=
  titleAux ' ' s

/-- Model of `strings.Replace(s, old, new, -1)` for a single-rune pattern. -/
def replaceAll (a b : Char) (s : List Char) : List Char :=
  s.map fun c => if c = a then b else c

/-- The literal `"Slice"` appended by `makeName`. -/
def sliceSuffix : List Char :=
  ['S', 'l', 'i', 'c', 'e']

/-- Number of leading `"[]"` pairs of a string; the termination measure of
`makeName`'s recursion. -/
def leadingSliceCount : List Char → Nat
  | a :: b :: rest => if a = '[' ∧ b = ']' then leadingSliceCount rest + 1 else 0
  | _ => 0

theorem leadingSliceCount_append_slice :
    (s : List Char) → leadingSliceCount (s ++ sliceSuffix) = leadingSliceCount s
  | [] => rfl
  | [_] => by
      simp only [List.cons_append, List.nil_append, sliceSuffix, leadingSliceCount]
      rw [if_neg]
      rintro ⟨-, h⟩
      exact absurd h (by decide)
  | a :: b :: rest => by
      simp only [List.cons_append, leadingSliceCount]
      rw [List.append_eq, leadingSliceCount_append_slice rest]

theorem leadingSliceCount_lt (t : List Char) (h : t.take 2 = ['[', ']']) :
    leadingSliceCount (t.drop 2 ++ sliceSuffix) < leadingSliceCount t := by
  rw [leadingSliceCount_append_slice]
  match t, h with
  | a :: b :: rest, h =>
    simp only [List.take, List.cons.injEq] at h
    obtain ⟨rfl, rfl, -⟩ := h
    have hc : leadingSliceCount ('[' :: ']' :: rest) = leadingSliceCount rest + 1 := by
      simp [leadingSliceCount]
    simp only [List.drop, hc]
    exact Nat.lt_succ_self _

/-- Model of `makeName` from `main.go`: create a capitalized identifier from
a type expression.  A leading `"[]"` is stripped and the literal `"Slice"` is
appended before recursing; afterwards every `'.'`, `'['` and `']'` is
replaced by `'_'` (in that order) and the result is title-cased. -/
def makeName (t : List Char) : List Char :=
  if h : t.take 2 = ['[', ']'] then
    makeName (t.drop 2 ++ sliceSuffix)
  else
    stringsTitle (replaceAll ']' '_' (replaceAll '[' '_' (replaceAll '.' '_' t)))
termination_by leadingSliceCount t
decreasing_by exact leadingSliceCount_lt t h

theorem makeName_slice (t : List Char) (h : t.take 2 = ['[', ']']) :
    makeName t = makeName (t.drop 2 ++ sliceSuffix) := by
  conv_lhs => rw [makeName]
  exact dif_pos h

theorem makeName_base (t : List Char) (h : ¬t.take 2 = ['[', ']']) :
    makeName t =
      stringsTitle (replaceAll ']' '_' (replaceAll '[' '_' (replaceAll '.' '_' t))) := by
  conv_lhs => rw [makeName]
  exact dif_neg h

/-- The `Z` struct of `main.go`: innermost specialization entry. -/
structure Z where
  name : List Char
  type : List Char
deriving DecidableEq

/-- The `Y` struct of `main.go`: middle entry carrying its list of Z values. -/
structure Y where
  name : List Char
  type : List Char
  z : List Z
deriving DecidableEq

/-- The `X` struct of `main.go`: outer entry carrying its list of Y values. -/
structure X where
  name : List Char
  type : List Char
  y : List Y
deriving DecidableEq

/-- The `Top` struct of `main.go`: base name plus the list of X values. -/
structure Top where
  name : List Char
  x : List X
deriving DecidableEq

/-- Model of the tree construction in `main` (lines 100–115): the Y list is
built only when the raw `--y` flag value is non-empty, the Z list only when
additionally the raw `--z` value is non-empty; every X entry receives the
same Y list and every Y entry the same Z list. -/
def buildTop (nm xRaw yRaw zRaw : List Char) : Top :=
  let ys : List Y :=
    if yRaw ≠ [] then
      let zs : List Z :=
        if zRaw ≠ [] then (expand zRaw).map fun zt => ⟨makeName zt, zt⟩ else []
      (expand yRaw).map fun yt => ⟨makeName yt, yt, zs⟩
    else []
  ⟨nm, (expand xRaw).map fun xt => ⟨makeName xt, xt, ys⟩⟩

/-- Total number of Z leaves of a specialization tree. -/
def zLeafCount (top : Top) : Nat :=
  (top.x.map fun xe => (xe.y.map fun ye => ye.z.length).sum).sum

theorem sum_map_const {α : Type} (l : List α) (c : Nat) :
    (l.map fun _ => c).sum = l.length * c := by
  induction l with
  | nil => simp
  | cons a l ih => simp [ih, Nat.succ_mul, Nat.add_comm]

/-- C1: for raw flag values whose expansions X, Y, Z have sizes m, n > 0 and
p > 0, the built tree has exactly m X entries, every X entry carries the
identical n-element Y list, every Y entry the identical p-element Z list, and
the total Z-leaf count is m * n * p — the tree is never ragged or customized
per branch. -/
theorem cross_cardinality (nm xRaw yRaw zRaw : List Char)
    (hm : 0 < (expand xRaw).length) (hn : 0 < (expand yRaw).length)
    (hp : 0 < (expand zRaw).length) :
    (buildTop nm xRaw yRaw zRaw).x.length = (expand xRaw).length ∧
    (∀ xe ∈ (buildTop nm xRaw yRaw zRaw).x, xe.y.length = (expand yRaw).length) ∧
    (∀ xe ∈ (buildTop nm xRaw yRaw zRaw).x, ∀ xe' ∈ (buildTop nm xRaw yRaw zRaw).x,
      xe.y = xe'.y) ∧
    (∀ xe ∈ (buildTop nm xRaw yRaw zRaw).x, ∀ ye ∈ xe.y,
      ye.z.length = (expand zRaw).length) ∧
    (∀ xe ∈ (buildTop nm xRaw yRaw zRaw).x, ∀ ye ∈ xe.y,
      ∀ xe' ∈ (buildTop nm xRaw yRaw zRaw).x, ∀ ye' ∈ xe'.y, ye.z = ye'.z) ∧
    zLeafCount (buildTop nm xRaw yRaw zRaw) =
      (expand xRaw).length * (expand yRaw).length * (expand zRaw).length := by
  have hy : yRaw ≠ [] := by
    intro hr
    rw [hr] at hn
    exact absurd hn (by decide)
  have hz : zRaw ≠ [] := by
    intro hr
    rw [hr] at hp
    exact absurd hp (by decide)
  have hb : buildTop nm xRaw yRaw zRaw = ⟨nm, (expand xRaw).map fun xt =>
      ⟨makeName xt, xt, (expand yRaw).map fun yt =>
        ⟨makeName yt, yt, (expand zRaw).map fun zt => ⟨makeName zt, zt⟩⟩⟩⟩ := by
    simp only [buildTop]
    rw [if_pos hy, if_pos hz]
  rw [hb]
  refine ⟨by simp, ?_, ?_, ?_, ?_, ?_⟩
  · rintro xe hxe
    simp only [List.mem_map] at hxe
    obtain ⟨xt, -, rfl⟩ := hxe
    simp
  · rintro xe hxe xe' hxe'
    simp only [List.mem_map] at hxe hxe'
    obtain ⟨xt, -, rfl⟩ := hxe
    obtain ⟨xt', -, rfl⟩ := hxe'
    rfl
  · rintro xe hxe ye hye
    simp only [List.mem_map] at hxe
    obtain ⟨xt, -, rfl⟩ := hxe
    simp only [List.mem_map] at hye
    obtain ⟨yt, -, rfl⟩ := hye
    simp
  · rintro xe hxe ye hye xe' hxe' ye' hye'
    simp only [List.mem_map] at hxe hxe'
    obtain ⟨xt, -, rfl⟩ := hxe
    obtain ⟨xt', -, rfl⟩ := hxe'
    simp only [List.mem_map] at hye hye'
    obtain ⟨yt, -, rfl⟩ := hye
    obtain ⟨yt', -, rfl⟩ := hye'
    rfl
  · simp only [zLeafCount, List.map_map, Function.comp_def, List.length_map,
      sum_map_const]
    ring

/-- Witness for C1 at the concrete invocation x="a,b", y="integers",
z="floats". -/
theorem cross_cardinality_witness :
    (0 < (expand "a,b".toList).length ∧ 0 < (expand "integers".toList).length ∧
      0 < (expand "floats".toList).length) ∧
    ((buildTop [] "a,b".toList "integers".toList "floats".toList).x.length =
        (expand "a,b".toList).length ∧
    (∀ xe ∈ (buildTop [] "a,b".toList "integers".toList "floats".toList).x,
      xe.y.length = (expand "integers".toList).length) ∧
    (∀ xe ∈ (buildTop [] "a,b".toList "integers".toList "floats".toList).x,
      ∀ xe' ∈ (buildTop [] "a,b".toList "integers".toList "floats".toList).x,
      xe.y = xe'.y) ∧
    (∀ xe ∈ (buildTop [] "a,b".toList "integers".toList "floats".toList).x,
      ∀ ye ∈ xe.y, ye.z.length = (expand "floats".toList).length) ∧
    (∀ xe ∈ (buildTop [] "a,b".toList "integers".toList "floats".toList).x,
      ∀ ye ∈ xe.y,
      ∀ xe' ∈ (buildTop [] "a,b".toList "integers".toList "floats".toList).x,
      ∀ ye' ∈ xe'.y, ye.z = ye'.z) ∧
    zLeafCount (buildTop [] "a,b".toList "integers".toList "floats".toList) =
      (expand "a,b".toList).length * (expand "integers".toList).length *
        (expand "floats".toList).length) :=
  ⟨⟨by decide, by decide, by decide⟩,
    cross_cardinality [] "a,b".toList "integers".toList "floats".toList
      (by decide) (by decide) (by decide)⟩

/-- C2: expand maps the macro name "integers" to exactly the ten integer
types in declared order, "floats" to exactly [float32, float64], and macro
matching is case-insensitive: "Integers" expands to the identical
lowercase-spelled sequence. -/
theorem expand_macro_registry :
    expand "integers".toList =
      ["int".toList, "int8".toList, "int16".toList, "int32".toList,
       "int64".toList, "uint".toList, "uint8".toList, "uint16".toList,
       "uint32".toList, "uint64".toList] ∧
    expand "floats".toList = ["float32".toList, "float64".toList] ∧
    expand "Integers".toList = expand "integers".toList := by
  refine ⟨by decide, by decide, by decide⟩

/-- C6: when the expansion of the y flag is empty (in particular when the raw
y flag is empty), every X entry of the built tree has an empty Y list and the
tree contains no Z entry anywhere, even for a non-empty z flag: the Z list is
silently ignored rather than raising an error. -/
theorem z_without_y (nm xRaw yRaw zRaw : List Char) (hz : zRaw ≠ [])
    (hy : expand yRaw = []) :
    (∀ xe ∈ (buildTop nm xRaw yRaw zRaw).x, xe.y = []) ∧
    zLeafCount (buildTop nm xRaw yRaw zRaw) = 0 := by
  have hx : (buildTop nm xRaw yRaw zRaw).x =
      (expand xRaw).map fun xt => ⟨makeName xt, xt, []⟩ := by
    by_cases hr : yRaw = []
    · simp only [buildTop]
      rw [if_neg (by simp [hr])]
    · simp only [buildTop]
      rw [if_pos hr, hy]
      simp
  constructor
  · intro xe hxe
    rw [hx] at hxe
    simp only [List.mem_map] at hxe
    obtain ⟨xt, -, rfl⟩ := hxe
    rfl
  · simp only [zLeafCount, hx, List.map_map, Function.comp_def]
    simp [sum_map_const]

/-- Witness for C6 at x="int", y=" " (non-empty raw flag whose expansion is
empty) and z="floats". -/
theorem z_without_y_witness :
    ("floats".toList ≠ [] ∧ expand " ".toList = []) ∧
    ((∀ xe ∈ (buildTop [] "int".toList " ".toList "floats".toList).x, xe.y = []) ∧
      zLeafCount (buildTop [] "int".toList " ".toList "floats".toList) = 0) :=
  ⟨⟨by decide, by decide⟩,
    z_without_y [] "int".toList " ".toList "floats".toList (by decide) (by decide)⟩

/-- Macro-expansion of a single already-trimmed, non-empty piece (the body of
the loop of expand after the skip of empty pieces). -/
def expandPiece (xt : List Char) : List (List Char) :=
  match macroLookup (toLowerGo xt) with
  | some exp => exp
  | none => [xt]

/-- Following the specification's words for C5: first trim every
comma-separated segment and drop the segments that become empty, then
macro-expand each remaining segment. -/
def expandSpec (list : List Char) : List (List Char) :=
  (((list.splitOn ',').map trimSpace).filter fun xt => xt != []).flatMap expandPiece

theorem expand_flatMap_filter (pieces : List (List Char)) :
    (pieces.flatMap fun piece =>
      let xt := trimSpace piece
      if xt = [] then [] else expandPiece xt) =
      ((pieces.map trimSpace).filter fun xt => xt != []).flatMap expandPiece := by
  induction pieces with
  | nil => rfl
  | cons p ps ih =>
    simp only [List.flatMap_cons, List.map_cons, List.filter_cons]
    by_cases hp : trimSpace p = []
    · simp [hp, ih]
    · simp only [hp, if_neg hp, bne_iff_ne, ne_eq, not_false_eq_true, if_pos,
        List.flatMap_cons, ih]
      simp [hp]

/-- C5: expand applied to any comma-separated input equals the result of
first trimming each segment and dropping the empty ones, then macro-expanding
each remaining segment — whitespace and empty segments never change the
result; in particular expand(" int , ,float32") = [int, float32]. -/
theorem expand_whitespace_invariance :
    (∀ list : List Char, expand list = expandSpec list) ∧
    expand " int , ,float32".toList = ["int".toList, "float32".toList] := by
  constructor
  · intro list
    exact expand_flatMap_filter (list.splitOn ',')
  · decide

/-- C3 counterexample: the claim deriveName("a.b.c") = "A_B_C" is false on
the code: makeName produces "A_b_c", because strings.Title does not treat the
underscore as a word separator. -/
theorem makeName_qualified_counterexample :
    ¬makeName "a.b.c".toList = "A_B_C".toList := by
  rw [makeName_base _ (by decide)]
  decide

/-- C3 amended: makeName maps "a.b.c" to "A_b_c": every qualifier dot becomes
an underscore, but only the first character is capitalized, since the
underscore is not a word separator for the title-casing step. -/
theorem makeName_qualified_amended :
    makeName "a.b.c".toList = "A_b_c".toList := by
  rw [makeName_base _ (by decide)]
  decide

/-- C4: makeName handles a leading slice marker by recursion:
makeName("[]byte") = "ByteSlice" and makeName("[][]int") = "IntSliceSlice". -/
theorem makeName_slice_examples :
    makeName "[]byte".toList = "ByteSlice".toList ∧
    makeName "[][]int".toList = "IntSliceSlice".toList := by
  constructor
  · rw [makeName_slice _ (by decide), makeName_base _ (by decide)]
    decide
  · rw [makeName_slice _ (by decide), makeName_slice _ (by decide),
      makeName_base _ (by decide)]
    decide

/-- C8: makeName is total — on any input starting with "[]", the recursive
call strictly decreases the number of leading "[]" markers (appending "Slice"
at the end never creates a new leading marker), and makeName satisfies the
recursive equation of the source. -/
theorem makeName_terminating (t : List Char) (h : t.take 2 = ['[', ']']) :
    leadingSliceCount (t.drop 2 ++ sliceSuffix) = leadingSliceCount (t.drop 2) ∧
    leadingSliceCount (t.drop 2 ++ sliceSuffix) < leadingSliceCount t ∧
    makeName t = makeName (t.drop 2 ++ sliceSuffix) :=
  ⟨leadingSliceCount_append_slice _, leadingSliceCount_lt t h, makeName_slice t h⟩

/-- Witness for C8 at the input "[]byte". -/
theorem makeName_terminating_witness :
    "[]byte".toList.take 2 = ['[', ']'] ∧
    (leadingSliceCount ("[]byte".toList.drop 2 ++ sliceSuffix) =
        leadingSliceCount ("[]byte".toList.drop 2) ∧
      leadingSliceCount ("[]byte".toList.drop 2 ++ sliceSuffix) <
        leadingSliceCount "[]byte".toList ∧
      makeName "[]byte".toList = makeName ("[]byte".toList.drop 2 ++ sliceSuffix)) :=
  ⟨by decide, makeName_terminating "[]byte".toList (by decide)⟩

theorem mem_replaceAll {a b c : Char} {s : List Char} (h : c ∈ replaceAll a b s) :
    c = b ∨ (c ∈ s ∧ c ≠ a) := by
  simp only [replaceAll, List.mem_map] at h
  obtain ⟨d, hd, hdc⟩ := h
  by_cases hda : d = a
  · rw [hda, if_pos rfl] at hdc
    exact Or.inl hdc.symm
  · rw [if_neg hda] at hdc
    subst hdc
    exact Or.inr ⟨hd, hda⟩

theorem mem_titleAux {c : Char} :
    ∀ {prev : Char} {s : List Char}, c ∈ titleAux prev s →
      ∃ d ∈ s, c = toTitleChar d ∨ c = d := by
  intro prev s
  induction s generalizing prev with
  | nil => intro h; cases h
  | cons r rest ih =>
    intro h
    simp only [titleAux, List.mem_cons] at h
    rcases h with h | h
    · refine ⟨r, List.mem_cons_self r rest, ?_⟩
      by_cases hsep : isSeparatorGo prev
      · rw [if_pos hsep] at h
        exact Or.inl h
      · rw [if_neg hsep] at h
        exact Or.inr h
    · obtain ⟨d, hd, hcd⟩ := ih h
      exact ⟨d, List.mem_cons_of_mem r hd, hcd⟩

theorem toTitleChar_mem_or (c : Char) :
    toTitleChar c = c ∨ ('A' ≤ toTitleChar c ∧ toTitleChar c ≤ 'Z') := by
  unfold toTitleChar
  cases hf : asciiUpperMap.find? fun p => p.1 == c with
  | none => exact Or.inl rfl
  | some p =>
    right
    have hp := List.mem_of_find?_eq_some hf
    have hall : asciiUpperMap.all
        (fun q => decide ('A' ≤ q.2) && decide (q.2 ≤ 'Z')) = true := by decide
    rw [List.all_eq_true] at hall
    have := hall p hp
    simp only [Bool.and_eq_true, decide_eq_true_eq] at this
    exact this

theorem toTitleChar_ok {c : Char} (h : ¬(c = '.' ∨ c = '[' ∨ c = ']')) :
    ¬(toTitleChar c = '.' ∨ toTitleChar c = '[' ∨ toTitleChar c = ']') := by
  rcases toTitleChar_mem_or c with he | ⟨h1, h2⟩
  · rwa [he]
  · rintro (hb | hb | hb) <;> rw [hb] at h1 h2 <;>
      first
      | exact absurd h1 (by decide)
      | exact absurd h2 (by decide)

theorem titleAux_length (prev : Char) (s : List Char) :
    (titleAux prev s).length = s.length := by
  induction s generalizing prev with
  | nil => rfl
  | cons r rest ih => simp [titleAux, ih]

theorem stringsTitle_length (s : List Char) :
    (stringsTitle s).length = s.length :=
  titleAux_length ' ' s

theorem makeName_chars (t : List Char) :
    ∀ c ∈ makeName t, ¬(c = '.' ∨ c = '[' ∨ c = ']') := by
  induction t using makeName.induct with
  | case1 t h ih =>
    rw [makeName_slice t h]
    exact ih
  | case2 t h =>
    rw [makeName_base t h]
    intro c hc
    obtain ⟨d, hd, hcd⟩ := mem_titleAux hc
    have hdok : ¬(d = '.' ∨ d = '[' ∨ d = ']') := by
      rcases mem_replaceAll hd with rfl | ⟨hd2, hne3⟩
      · decide
      rcases mem_replaceAll hd2 with rfl | ⟨hd1, hne2⟩
      · decide
      rcases mem_replaceAll hd1 with rfl | ⟨-, hne1⟩
      · decide
      simp [hne1, hne2, hne3]
    rcases hcd with rfl | rfl
    · exact toTitleChar_ok hdok
    · exact hdok

theorem makeName_ne_nil (t : List Char) (h : t ≠ []) : makeName t ≠ [] := by
  induction t using makeName.induct with
  | case1 t hp ih =>
    rw [makeName_slice t hp]
    exact ih (by simp [sliceSuffix])
  | case2 t hp =>
    rw [makeName_base t hp]
    intro hnil
    have hlen := stringsTitle_length
      (replaceAll ']' '_' (replaceAll '[' '_' (replaceAll '.' '_' t)))
    rw [hnil] at hlen
    simp only [List.length_nil, replaceAll, List.length_map] at hlen
    exact h (List.length_eq_zero.mp hlen.symm)

theorem macroLookup_mem_ne_nil {k : List Char} {v : List (List Char)}
    (h : macroLookup k = some v) : ∀ p ∈ v, p ≠ [] := by
  unfold macroLookup at h
  cases hf : macros.find? fun kv => kv.1 == k with
  | none => rw [hf] at h; cases h
  | some kv =>
    rw [hf] at h
    obtain rfl : kv.2 = v := by simpa using h
    have hm := List.mem_of_find?_eq_some hf
    have hall : macros.all (fun q => q.2.all fun p => !p.isEmpty) = true := by decide
    rw [List.all_eq_true] at hall
    have h2 := hall kv hm
    rw [List.all_eq_true] at h2
    intro p hp
    have := h2 p hp
    simpa [List.isEmpty_iff] using this

theorem expand_mem_ne_nil (list : List Char) : ∀ p ∈ expand list, p ≠ [] := by
  intro p hp
  unfold expand at hp
  rw [List.mem_flatMap] at hp
  obtain ⟨piece, -, hmem⟩ := hp
  by_cases ht : trimSpace piece = []
  · rw [if_pos ht] at hmem
    cases hmem
  · rw [if_neg ht] at hmem
    cases hml : macroLookup (toLowerGo (trimSpace piece)) with
    | none =>
      rw [hml] at hmem
      simp only [List.mem_singleton] at hmem
      subst hmem
      exact ht
    | some exp =>
      rw [hml] at hmem
      exact macroLookup_mem_ne_nil hml p hmem

/-- A name is identifier-safe: non-empty and free of '.', '[' and ']'. -/
def identOk (s : List Char) : Bool :=
  !s.isEmpty && s.all fun c => !(c == '.' || c == '[' || c == ']')

theorem identOk_makeName {p : List Char} (hp : p ≠ []) :
    identOk (makeName p) = true := by
  have h1 := makeName_ne_nil p hp
  have h2 := makeName_chars p
  simp only [identOk, Bool.and_eq_true, Bool.not_eq_true', List.isEmpty_eq_false,
    List.all_eq_true]
  refine ⟨h1, ?_⟩
  intro c hc
  have h3 := h2 c hc
  simp only [Bool.or_eq_false_iff, beq_eq_false_iff_ne, ne_eq]
  push_neg at h3
  exact ⟨⟨h3.1, h3.2.1⟩, h3.2.2⟩

/-- C7: every X, Y or Z entry placed in the tree has a non-empty derived
name containing none of the characters '.', '[' or ']' (entry types come
from expand's output, whose elements are always non-empty). -/
theorem tree_names_identifier_safe (nm xRaw yRaw zRaw : List Char) :
    ((buildTop nm xRaw yRaw zRaw).x.all fun xe =>
      identOk xe.name && (xe.y.all fun ye =>
        identOk ye.name && (ye.z.all fun ze => identOk ze.name))) = true := by
  rw [List.all_eq_true]
  intro xe hxe
  simp only [buildTop] at hxe
  rw [List.mem_map] at hxe
  obtain ⟨xt, hxt, rfl⟩ := hxe
  rw [Bool.and_eq_true]
  refine ⟨identOk_makeName (expand_mem_ne_nil xRaw xt hxt), ?_⟩
  rw [List.all_eq_true]
  intro ye hye
  by_cases hy : yRaw ≠ []
  · rw [if_pos hy] at hye
    rw [List.mem_map] at hye
    obtain ⟨yt, hyt, rfl⟩ := hye
    rw [Bool.and_eq_true]
    refine ⟨identOk_makeName (expand_mem_ne_nil yRaw yt hyt), ?_⟩
    rw [List.all_eq_true]
    intro ze hze
    by_cases hzr : zRaw ≠ []
    · rw [if_pos hzr] at hze
      rw [List.mem_map] at hze
      obtain ⟨zt, hzt, rfl⟩ := hze
      exact identOk_makeName (expand_mem_ne_nil zRaw zt hzt)
    · rw [if_neg hzr] at hze
      cases hze
  · rw [if_neg hy] at hye
    cases hye

/-- The component loop of path/filepath.Clean: empty and "." components are
dropped; ".." pops the last kept component unless nothing poppable is kept
(then it is dropped for a rooted path and kept for a relative one); any other
component is appended. -/
def cleanComponents (rooted : Bool) : List (List Char) → List (List Char) → List (List Char)
  | [], out => out
  | e :: rest, out =>
    if e = [] ∨ e = ['.'] then cleanComponents rooted rest out
    else if e = ['.', '.'] then
      if out ≠ [] ∧ out.getLast? ≠ some ['.', '.'] then
        cleanComponents rooted rest out.dropLast
      else if rooted then cleanComponents rooted rest out
      else cleanComponents rooted rest (out ++ [e])
    else cleanComponents rooted rest (out ++ [e])

/-- Model of path/filepath.Clean for slash-separated paths: shortest lexical
equivalent; empty input gives ".", a rooted result keeps its leading slash,
an empty relative result becomes ".". -/
def filepathClean (p : List Char) : List Char :=
  if p = [] then ['.']
  else
    let rooted := decide (p.head? = some '/')
    let comps := cleanComponents rooted (p.splitOn '/') []
    let body := List.intercalate ['/'] comps
    if rooted then '/' :: body
    else if body = [] then ['.'] else body

/-- Model of path/filepath.Base: the last element of the path after trailing
slashes are removed; "." for the empty path, "/" for an all-slash path. -/
def filepathBase (p : List Char) : List Char :=
  if p = [] then ['.']
  else
    let p1 := (p.reverse.dropWhile fun c => c == '/').reverse
    if p1 = [] then ['/']
    else (p1.reverse.takeWhile fun c => c != '/').reverse

/-- Model of path/filepath.Dir: everything up to and including the final
slash, cleaned. -/
def filepathDir (p : List Char) : List Char :=
  filepathClean ((p.reverse.dropWhile fun c => c != '/').reverse)

/-- Model of path/filepath.Join for two elements: the slash-joined
concatenation starting at the first non-empty element, cleaned. -/
def filepathJoin (a b : List Char) : List Char :=
  if a ≠ [] then filepathClean (a ++ '/' :: b)
  else if b ≠ [] then filepathClean b
  else []

/-- Model of the base-name computation of main (lines 92–95): the basename of
the input path, cut at the first '.' when that dot sits at a positive index. -/
def stripName (input : List Char) : List Char :=
  let name := filepathBase input
  match name.findIdx? fun c => c == '.' with
  | some index => if index > 0 then name.take index else name
  | none => name

/-- Model of the default output path of main (lines 96–98): the input's
directory joined with the stripped base name plus ".go". -/
def defaultOutput (input : List Char) : List Char :=
  filepathJoin (filepathDir input) (stripName input ++ ".go".toList)

/-- C9: with no output flag, the default output path for
input pkg/foo.go.tmpl is pkg/foo.go — the input's directory joined with the
input basename stripped at its first dot, plus ".go". -/
theorem default_output_path :
    defaultOutput "pkg/foo.go.tmpl".toList = "pkg/foo.go".toList := by
  decide

/-- C10: for an input path whose basename has its first '.' at position 0 (a
dot-file), nothing is stripped: the derived base name is the whole basename,
and the default output path is the directory joined with that basename plus
".go". -/
theorem dotfile_no_strip (input : List Char)
    (h : (filepathBase input).findIdx? (fun c => c == '.') = some 0) :
    stripName input = filepathBase input ∧
    defaultOutput input = filepathJoin (filepathDir input)
      (filepathBase input ++ ".go".toList) := by
  have hs : stripName input = filepathBase input := by
    have hu : stripName input =
        match (filepathBase input).findIdx? fun c => c == '.' with
        | some index =>
            if index > 0 then (filepathBase input).take index else filepathBase input
        | none => filepathBase input := rfl
    rw [hu, h]
    rfl
  refine ⟨hs, ?_⟩
  unfold defaultOutput
  rw [hs]

/-- Witness for C10 at the input ".foo.go.tmpl". -/
theorem dotfile_no_strip_witness :
    (filepathBase ".foo.go.tmpl".toList).findIdx? (fun c => c == '.') = some 0 ∧
    (stripName ".foo.go.tmpl".toList = filepathBase ".foo.go.tmpl".toList ∧
      defaultOutput ".foo.go.tmpl".toList =
        filepathJoin (filepathDir ".foo.go.tmpl".toList)
          (filepathBase ".foo.go.tmpl".toList ++ ".go".toList)) :=
  ⟨by decide, dotfile_no_strip ".foo.go.tmpl".toList (by decide)⟩

end Specialize
